import Mathlib

/-!
# Verification of the FreeImageRe codec core

A shallow embedding, in Lean 4, of the codec-engine fragments of the
FreeImageRe repository (BMP / GIF / PCX plugins and the format-detection
entry point), together with theorems settling the specification claims
about them.  Every definition is translated from the C++ source
(`Source/Plugins/PluginBMP.cpp`, `Source/Plugins/PluginGIF.cpp`,
`Source/Plugins/PluginPCX.cpp`, `Source/FreeImage/GetType.cpp`), except
where a definition's doc comment explicitly says it is modelled from the
specification because the corresponding code is not part of the excerpt.

Machine integers are modelled as `Nat` (with explicit masking where the
source masks); byte streams are immutable byte lists with a read
position.
-/

/-! ## Byte-stream model

`FreeImageIO` handles are seekable byte streams.  Reads return the bytes
actually available (like `fread` with item size 1: the returned count is
the number of bytes read) and advance the position by that count. -/

/-- A seekable byte stream: immutable contents plus a read position. -/
structure ByteStream where
  data : List Nat
  pos : Nat
deriving Repr, DecidableEq

/-- Read up to `n` bytes at the current position, advancing the position
by the number of bytes actually read. -/
def ByteStream.readBytes (s : ByteStream) (n : Nat) : List Nat × ByteStream :=
  let bs := (s.data.drop s.pos).take n
  (bs, { s with pos := s.pos + bs.length })

/-! ## PCX validation (PluginPCX.cpp, `pcx_validate`) -/

/-- `pcx_validate` (PluginPCX.cpp lines 83-106): read 4 bytes; if fewer
than 4 were read, fail; otherwise check magic byte 0x0A, version ≤ 5,
encoding 0 or 1, and bits-per-pixel-per-plane 1 or 8. -/
def pcx_validate (s : ByteStream) : Bool × ByteStream :=
  let r := s.readBytes 4
  match r.1 with
  | [b0, b1, b2, b3] =>
      if b0 = 0x0A then
        if b1 ≤ 5 then
          if b2 = 0 ∨ b2 = 1 then
            if b3 = 1 ∨ b3 = 8 then (true, r.2)
            else (false, r.2)
          else (false, r.2)
        else (false, r.2)
      else (false, r.2)
  | _ => (false, r.2)

/-! ## OS/2 v2 BMP palette loading (PluginBMP.cpp, `LoadOS22XBMP`) -/

/-- One palette entry of the in-memory bitmap palette (`FIRGBA8`). -/
structure RGBA8 where
  red : Nat
  green : Nat
  blue : Nat
  alpha : Nat
deriving Repr, DecidableEq, Inhabited

/-- The palette-entry-size auto-detection of `LoadOS22XBMP`
(PluginBMP.cpp line 716): the byte size of the palette region (from the
end of the info header to the pixel-data offset) divided by the number
of palette entries.  `sizeof(BITMAPFILEHEADER)` is 14 (packed). -/
def os2PalEntrySize (bitmapBitsOffset biSize usedColors : Nat) : Nat :=
  (bitmapBitsOffset - 14 - biSize) / usedColors

/-- The 4-byte-entry palette read loop of `LoadOS22XBMP` (lines
722-731): each iteration reads a `FILE_BGRA` record (bytes b, g, r, a in
stream order) and stores r, g, b into the palette entry, leaving the
entry's alpha as allocated.  `read_proc`'s result is not checked by the
source; on a short read the record bytes are unspecified there, so the
model leaves the remaining entries unchanged (the theorems below only
concern streams holding the whole palette region). -/
def os2ReadPal4 (pal : List RGBA8) (bytes : List Nat) (count usedColors : Nat) :
    List RGBA8 :=
  if count < usedColors then
    match bytes with
    | b :: g :: r :: _a :: rest =>
        os2ReadPal4
          (pal.set count
            { pal.getD count default with red := r, green := g, blue := b })
          rest (count + 1) usedColors
    | _ => pal
  else pal
termination_by usedColors - count

/-- The 3-byte-entry palette read loop of `LoadOS22XBMP` (lines
732-741): each iteration reads a `FILE_BGR` record (bytes b, g, r) and
stores r, g, b into the palette entry. -/
def os2ReadPal3 (pal : List RGBA8) (bytes : List Nat) (count usedColors : Nat) :
    List RGBA8 :=
  if count < usedColors then
    match bytes with
    | b :: g :: r :: rest =>
        os2ReadPal3
          (pal.set count
            { pal.getD count default with red := r, green := g, blue := b })
          rest (count + 1) usedColors
    | _ => pal
  else pal
termination_by usedColors - count

/-- The palette-loading step of `LoadOS22XBMP` (lines 714-742): compute
the per-entry size from the palette region and dispatch on it; any value
other than 3 or 4 leaves the allocated palette untouched. -/
def loadOS2Palette (pal : List RGBA8) (bitmapBitsOffset biSize usedColors : Nat)
    (bytes : List Nat) : List RGBA8 :=
  let palSize := os2PalEntrySize bitmapBitsOffset biSize usedColors
  if palSize = 4 then os2ReadPal4 pal bytes 0 usedColors
  else if palSize = 3 then os2ReadPal3 pal bytes 0 usedColors
  else pal

/-! ## GIF page selection (PluginGIF.cpp, `Load`, lines 656-667) -/

/-- The read-side open context of the GIF plugin (struct `GIFinfo`),
restricted to the fields the embedded fragments consult. -/
structure GIFinfo where
  globalColorTableOffset : Nat
  globalColorTableSize : Nat
  backgroundColor : Nat
  imageDescriptorOffsets : List Nat
  gceOffsets : List Nat
deriving Repr

/-- The page-argument prelude of the GIF `Load` (lines 656-667): a null
context fails; a page of -1 is replaced by 0; a page outside
`[0, number of image descriptors)` fails. -/
def gifLoadSelectPage (data : Option GIFinfo) (page : Int) : Option Nat :=
  match data with
  | none => none
  | some info =>
      let page := if page = -1 then 0 else page
      if page < 0 ∨ (info.imageDescriptorOffsets.length : Int) ≤ page then none
      else some page.toNat

/-- GIF `Load` with the frame-decoding body abstracted: the body (which
performs all stream reads of frame data) is an arbitrary continuation
`f` applied to the validated page index; the prelude never invokes it on
a rejected page, so no frame data is read there. -/
def gifLoad {α : Type} (data : Option GIFinfo) (page : Int) (f : Nat → Option α) :
    Option α :=
  (gifLoadSelectPage data page).bind f

/-! ## Theorems: C10, C8, C9 -/

/-- C10: the PCX validate predicate returns true iff at least 4 bytes
can be read at the current position and they satisfy: byte 0 is 0x0A,
byte 1 is at most 5, byte 2 is 0 or 1, and byte 3 is 1 or 8; a stream
shorter than 4 bytes yields false, not an error. -/
theorem pcx_validate_true_iff (s : ByteStream) :
    (pcx_validate s).1 = true ↔
      ∃ b0 b1 b2 b3 rest, s.data.drop s.pos = b0 :: b1 :: b2 :: b3 :: rest ∧
        b0 = 0x0A ∧ b1 ≤ 5 ∧ (b2 = 0 ∨ b2 = 1) ∧ (b3 = 1 ∨ b3 = 8) := by
  unfold pcx_validate ByteStream.readBytes
  constructor
  · intro h
    cases hd : s.data.drop s.pos with
    | nil => simp [hd] at h
    | cons b0 t0 =>
      cases t0 with
      | nil => simp [hd] at h
      | cons b1 t1 =>
        cases t1 with
        | nil => simp [hd] at h
        | cons b2 t2 =>
          cases t2 with
          | nil => simp [hd] at h
          | cons b3 t3 =>
            refine ⟨b0, b1, b2, b3, t3, rfl, ?_⟩
            simp only [hd, List.take_succ_cons, List.take_zero] at h
            by_cases h0 : b0 = 0x0A <;> simp [h0] at h
            by_cases h1 : b1 ≤ 5 <;> simp [h1] at h
            by_cases h2 : b2 = 0 ∨ b2 = 1 <;> simp [h2] at h
            by_cases h3 : b3 = 1 ∨ b3 = 8 <;> simp [h3] at h
            exact ⟨h0, h1, h2, h3⟩
  · rintro ⟨b0, b1, b2, b3, rest, hd, h0, h1, h2, h3⟩
    simp [hd, h0, h1, h2, h3]

/-- Lists of length at least 4 start with four explicit elements. -/
theorem exists_cons4 {α : Type} (l : List α) (h : 4 ≤ l.length) :
    ∃ b g r a rest, l = b :: g :: r :: a :: rest := by
  rcases l with _ | ⟨b, _ | ⟨g, _ | ⟨r, _ | ⟨a, rest⟩⟩⟩⟩ <;> simp at h ⊢

/-- Lists of length at least 3 start with three explicit elements. -/
theorem exists_cons3 {α : Type} (l : List α) (h : 3 ≤ l.length) :
    ∃ b g r rest, l = b :: g :: r :: rest := by
  rcases l with _ | ⟨b, _ | ⟨g, _ | ⟨r, rest⟩⟩⟩ <;> simp at h ⊢

/-- Entries below the running index are never touched by the 4-byte
palette read loop. -/
theorem os2ReadPal4_getD_lt (pal : List RGBA8) (bytes : List Nat) (c n i : Nat)
    (hic : i < c) :
    (os2ReadPal4 pal bytes c n).getD i default = pal.getD i default := by
  generalize h : n - c = k
  induction k generalizing pal bytes c with
  | zero =>
    have hcn : ¬ c < n := by omega
    rw [os2ReadPal4.eq_def, if_neg hcn]
  | succ k ih =>
    have hcn : c < n := by omega
    rw [os2ReadPal4.eq_def, if_pos hcn]
    rcases bytes with _ | ⟨b, _ | ⟨g, _ | ⟨r, _ | ⟨a, rest⟩⟩⟩⟩
    · rfl
    · rfl
    · rfl
    · rfl
    · rw [ih _ rest (c + 1) (by omega) (by omega)]
      simp only [List.getD_eq_getElem?_getD]
      rw [List.getElem?_set_ne (by omega)]

/-- Characterization of the 4-byte palette read loop: entry `i` (with
`c ≤ i < n`, enough palette room, and enough bytes) receives the r, g, b
channels of the `i - c`-th 4-byte record, keeping its alpha. -/
theorem os2ReadPal4_getD (pal : List RGBA8) (bytes : List Nat) (c n i : Nat)
    (hc : c ≤ i) (hi : i < n) (hpal : n ≤ pal.length)
    (hb : 4 * (n - c) ≤ bytes.length) :
    (os2ReadPal4 pal bytes c n).getD i default =
      { pal.getD i default with
          red := bytes.getD (4 * (i - c) + 2) 0,
          green := bytes.getD (4 * (i - c) + 1) 0,
          blue := bytes.getD (4 * (i - c)) 0 } := by
  generalize h : n - c = k
  induction k generalizing pal bytes c with
  | zero => omega
  | succ k ih =>
    have hcn : c < n := by omega
    rw [os2ReadPal4.eq_def, if_pos hcn]
    obtain ⟨b, g, r, a, rest, rfl⟩ := exists_cons4 bytes (by omega)
    have hrestlen : 4 * (n - (c + 1)) ≤ rest.length := by
      simp only [List.length_cons] at hb
      omega
    rcases Nat.lt_or_ge c i with hlt | hge
    · rw [ih _ rest (c + 1) hlt (by simpa using hpal) hrestlen (by omega)]
      have h4 : ∀ j, rest.getD (4 * (i - (c + 1)) + j) 0 =
          (b :: g :: r :: a :: rest).getD (4 * (i - c) + j) 0 := by
        intro j
        have he : 4 * (i - c) + j = 4 * (i - (c + 1)) + j + 4 := by omega
        rw [he]
        simp
      have hset : (pal.set c
          { pal.getD c default with red := r, green := g, blue := b }).getD i
            default = pal.getD i default := by
        simp only [List.getD_eq_getElem?_getD]
        rw [List.getElem?_set_ne (by omega)]
      have e2 := h4 2
      have e1 := h4 1
      have e0 := h4 0
      simp only [Nat.add_zero] at e0
      rw [hset, e2, e1, e0]
    · have hieq : i = c := by omega
      subst hieq
      rw [os2ReadPal4_getD_lt _ _ _ _ _ (by omega)]
      have hlen : i < pal.length := by omega
      simp only [List.getD_eq_getElem?_getD]
      rw [List.getElem?_set_self hlen]
      have hii : i - i = 0 := by omega
      simp [hii, List.getElem?_eq_getElem hlen]

/-- Entries below the running index are never touched by the 3-byte
palette read loop. -/
theorem os2ReadPal3_getD_lt (pal : List RGBA8) (bytes : List Nat) (c n i : Nat)
    (hic : i < c) :
    (os2ReadPal3 pal bytes c n).getD i default = pal.getD i default := by
  generalize h : n - c = k
  induction k generalizing pal bytes c with
  | zero =>
    have hcn : ¬ c < n := by omega
    rw [os2ReadPal3.eq_def, if_neg hcn]
  | succ k ih =>
    have hcn : c < n := by omega
    rw [os2ReadPal3.eq_def, if_pos hcn]
    rcases bytes with _ | ⟨b, _ | ⟨g, _ | ⟨r, rest⟩⟩⟩
    · rfl
    · rfl
    · rfl
    · rw [ih _ rest (c + 1) (by omega) (by omega)]
      simp only [List.getD_eq_getElem?_getD]
      rw [List.getElem?_set_ne (by omega)]

/-- Characterization of the 3-byte palette read loop: entry `i` receives
the r, g, b channels of the `i - c`-th 3-byte record. -/
theorem os2ReadPal3_getD (pal : List RGBA8) (bytes : List Nat) (c n i : Nat)
    (hc : c ≤ i) (hi : i < n) (hpal : n ≤ pal.length)
    (hb : 3 * (n - c) ≤ bytes.length) :
    (os2ReadPal3 pal bytes c n).getD i default =
      { pal.getD i default with
          red := bytes.getD (3 * (i - c) + 2) 0,
          green := bytes.getD (3 * (i - c) + 1) 0,
          blue := bytes.getD (3 * (i - c)) 0 } := by
  generalize h : n - c = k
  induction k generalizing pal bytes c with
  | zero => omega
  | succ k ih =>
    have hcn : c < n := by omega
    rw [os2ReadPal3.eq_def, if_pos hcn]
    obtain ⟨b, g, r, rest, rfl⟩ := exists_cons3 bytes (by omega)
    have hrestlen : 3 * (n - (c + 1)) ≤ rest.length := by
      simp only [List.length_cons] at hb
      omega
    rcases Nat.lt_or_ge c i with hlt | hge
    · rw [ih _ rest (c + 1) hlt (by simpa using hpal) hrestlen (by omega)]
      have h3 : ∀ j, rest.getD (3 * (i - (c + 1)) + j) 0 =
          (b :: g :: r :: rest).getD (3 * (i - c) + j) 0 := by
        intro j
        have he : 3 * (i - c) + j = 3 * (i - (c + 1)) + j + 3 := by omega
        rw [he]
        simp
      have hset : (pal.set c
          { pal.getD c default with red := r, green := g, blue := b }).getD i
            default = pal.getD i default := by
        simp only [List.getD_eq_getElem?_getD]
        rw [List.getElem?_set_ne (by omega)]
      have e2 := h3 2
      have e1 := h3 1
      have e0 := h3 0
      simp only [Nat.add_zero] at e0
      rw [hset, e2, e1, e0]
    · have hieq : i = c := by omega
      subst hieq
      rw [os2ReadPal3_getD_lt _ _ _ _ _ (by omega)]
      have hlen : i < pal.length := by omega
      simp only [List.getD_eq_getElem?_getD]
      rw [List.getElem?_set_self hlen]
      have hii : i - i = 0 := by omega
      simp [hii, List.getElem?_eq_getElem hlen]

/-- C8: palette entry layout auto-detection in `LoadOS22XBMP`.  With `N`
palette entries, a palette region of exactly `N*3` bytes yields per-entry
size 3 and the palette is filled from consecutive 3-byte b,g,r records;
a region of exactly `N*4` bytes yields per-entry size 4 and the palette
is filled from consecutive 4-byte b,g,r,a records; in both cases entry
`i` carries the record's channel values (red, green, blue). -/
theorem loadOS2Palette_autodetect (pal : List RGBA8) (offs biSize n : Nat)
    (bytes : List Nat) (i : Nat) (hn : 0 < n) (hi : i < n)
    (hpal : n ≤ pal.length) :
    ((offs - 14 - biSize = 3 * n → 3 * n ≤ bytes.length →
      os2PalEntrySize offs biSize n = 3 ∧
      (loadOS2Palette pal offs biSize n bytes).getD i default =
        { (pal.getD i default) with
            red := bytes.getD (3 * i + 2) 0,
            green := bytes.getD (3 * i + 1) 0,
            blue := bytes.getD (3 * i) 0 }) ∧
     (offs - 14 - biSize = 4 * n → 4 * n ≤ bytes.length →
      os2PalEntrySize offs biSize n = 4 ∧
      (loadOS2Palette pal offs biSize n bytes).getD i default =
        { (pal.getD i default) with
            red := bytes.getD (4 * i + 2) 0,
            green := bytes.getD (4 * i + 1) 0,
            blue := bytes.getD (4 * i) 0 })) := by
  constructor
  · intro hreg hlen
    have hsz : os2PalEntrySize offs biSize n = 3 := by
      unfold os2PalEntrySize
      rw [hreg, Nat.mul_div_cancel _ hn]
    refine ⟨hsz, ?_⟩
    unfold loadOS2Palette
    rw [hsz]
    simp only [if_neg (by omega : ¬ (3 : Nat) = 4), if_pos rfl]
    have := os2ReadPal3_getD pal bytes 0 n i (Nat.zero_le i) hi hpal
      (by simpa using hlen)
    simpa using this
  · intro hreg hlen
    have hsz : os2PalEntrySize offs biSize n = 4 := by
      unfold os2PalEntrySize
      rw [hreg, Nat.mul_div_cancel _ hn]
    refine ⟨hsz, ?_⟩
    unfold loadOS2Palette
    rw [hsz]
    simp only [if_pos rfl]
    have := os2ReadPal4_getD pal bytes 0 n i (Nat.zero_le i) hi hpal
      (by simpa using hlen)
    simpa using this

/-- Witness for `loadOS2Palette_autodetect`: a 4-entry palette with a
12-byte (3 per entry) palette region; entry 1 receives bytes 3..5 as
b, g, r. -/
theorem loadOS2Palette_autodetect_witness :
    os2PalEntrySize 26 0 4 = 3 ∧
    (loadOS2Palette (List.replicate 4 ⟨0, 0, 0, 7⟩) 26 0 4
        [10, 11, 12, 20, 21, 22, 30, 31, 32, 40, 41, 42]).getD 1 default =
      { red := 22, green := 21, blue := 20, alpha := 7 } := by
  have h := (loadOS2Palette_autodetect (List.replicate 4 ⟨0, 0, 0, 7⟩) 26 0 4
      [10, 11, 12, 20, 21, 22, 30, 31, 32, 40, 41, 42] 1
      (by decide) (by decide) (by decide)).1 (by decide) (by decide)
  exact ⟨h.1, by rw [h.2]; decide⟩

/-- C9: for a valid GIF open context, a page argument of -1 selects the
same result as page 0, and any other negative page, or a page at least
the number of image descriptors found by `Open`, makes `Load` fail
(return none) for every possible frame-decoding body, hence without any
frame-data read. -/
theorem gifLoad_page_bounds {α : Type} (info : GIFinfo) (f : Nat → Option α)
    (page : Int)
    (hbad : page ≠ -1 ∧
      (page < 0 ∨ (info.imageDescriptorOffsets.length : Int) ≤ page)) :
    gifLoad (some info) (-1) f = gifLoad (some info) 0 f ∧
    gifLoad (some info) page f = none := by
  obtain ⟨hne, hout⟩ := hbad
  constructor
  · rfl
  · unfold gifLoad gifLoadSelectPage
    simp only [if_neg hne]
    rcases hout with h | h
    · simp [if_pos (Or.inl h)]
    · simp [if_pos (Or.inr h)]

/-- Witness for `gifLoad_page_bounds` at a concrete context and page. -/
theorem gifLoad_page_bounds_witness :
    gifLoad (α := Nat) (some ⟨0, 0, 0, [100, 200], [0, 0]⟩) (-1) some =
        gifLoad (some ⟨0, 0, 0, [100, 200], [0, 0]⟩) 0 some ∧
    gifLoad (α := Nat) (some ⟨0, 0, 0, [100, 200], [0, 0]⟩) 2 some = none :=
  gifLoad_page_bounds ⟨0, 0, 0, [100, 200], [0, 0]⟩ some 2
    ⟨by decide, Or.inr (by simp)⟩

/-! ## Format registry and detection (GetType.cpp, `FreeImage_GetFileTypeFromHandle`) -/

/-- Format identifiers (`FREE_IMAGE_FORMAT`), reduced to the cases the
detection logic distinguishes by name. -/
inductive FIF where
  | unknown : FIF
  | tiff : FIF
  | raw : FIF
  | other : Nat → FIF
deriving Repr, DecidableEq

/-- A registered plugin node: format, enabled flag, and the codec's raw
validate procedure.  The raw procedure reads a bounded signature at the
current position and reports its result together with the position at
which its reads left the stream (e.g. the GIF `Validate` reads 6 bytes
and does not seek back). -/
structure PluginNode where
  fif : FIF
  enabled : Bool
  validateRaw : ByteStream → Bool × Nat

/-- Modelled from the spec: the registry's per-probe validate wrapper
(`PluginNode::Validate` lives in `Source/FreeImage/Plugin.cpp`, which is
missing from the excerpt; only its callers are present).  Spec 4.1: each
probe "must leave the stream position unchanged on return (callers rely
on exact pre/post position symmetry — the engine restores the original
offset around each probe)": the wrapper saves the offset, runs the
codec's raw validate, and seeks back to the saved offset. -/
def nodeValidate (node : PluginNode) (s : ByteStream) : Bool × ByteStream :=
  let saved := s.pos
  let r := node.validateRaw s
  (r.1, { s with pos := saved })

/-- Modelled from the spec: `FreeImage_ValidateFIF` (also in the missing
`Plugin.cpp`).  Spec 4.1: a stream that validates as TIFF "must be
re-probed against a raw-sensor-format codec if registered"; an
unregistered format does not validate. -/
def validateFIF (nodes : List (Option PluginNode)) (fif : FIF) (s : ByteStream) :
    Bool × ByteStream :=
  match (nodes.filterMap id).find? (fun n => n.fif = fif) with
  | some node => nodeValidate node s
  | none => (false, s)

/-- The detection loop of `FreeImage_GetFileTypeFromHandle` (GetType.cpp
lines 40-45): iterate the registry in order; a null or disabled node is
skipped without probing; the first node whose (position-restoring)
validate returns true wins. -/
def scanNodes (nodes : List (Option PluginNode)) (s : ByteStream) :
    FIF × ByteStream :=
  match nodes with
  | [] => (FIF.unknown, s)
  | none :: rest => scanNodes rest s
  | some node :: rest =>
      if node.enabled then
        let r := nodeValidate node s
        if r.1 then (node.fif, r.2) else scanNodes rest r.2
      else scanNodes rest s

/-- `FreeImage_GetFileTypeFromHandle` (GetType.cpp lines 36-57): a null
handle yields FIF_UNKNOWN without probing; otherwise scan the registry;
if the deduced format is TIFF, re-validate against the RAW codec and
prefer it when it matches. -/
def FreeImage_GetFileTypeFromHandle (nodes : List (Option PluginNode))
    (handle : Option ByteStream) : FIF × Option ByteStream :=
  match handle with
  | none => (FIF.unknown, none)
  | some s =>
      let r := scanNodes nodes s
      if r.1 = FIF.tiff then
        let rv := validateFIF nodes FIF.raw r.2
        (if rv.1 then FIF.raw else r.1, some rv.2)
      else (r.1, some r.2)

/-- The detection loop hands each probe the stream unchanged. -/
theorem scanNodes_stream (nodes : List (Option PluginNode)) (s : ByteStream) :
    (scanNodes nodes s).2 = s := by
  induction nodes with
  | nil => rfl
  | cons node rest ih =>
      cases node with
      | none => exact ih
      | some n =>
          by_cases he : n.enabled
          · simp only [scanNodes, nodeValidate, he, if_true]
            split
            · rfl
            · exact ih
          · simpa [scanNodes, he] using ih

/-- C3: every probe performed during format detection restores the
stream's read position, and `FreeImage_GetFileTypeFromHandle` as a whole
returns the stream with its original position (indeed unchanged). -/
theorem detection_preserves_position (node : PluginNode)
    (nodes : List (Option PluginNode)) (s : ByteStream) :
    (nodeValidate node s).2.pos = s.pos ∧
    (FreeImage_GetFileTypeFromHandle nodes (some s)).2 = some s := by
  refine ⟨rfl, ?_⟩
  simp only [FreeImage_GetFileTypeFromHandle, scanNodes_stream]
  unfold validateFIF
  cases hf : (scanNodes nodes s).1 <;>
    simp [hf, nodeValidate] <;>
    split <;> simp [nodeValidate]

/-- The first registered, enabled codec whose raw validate accepts the
stream (probed at the original position, since probes restore it). -/
def firstValidating (nodes : List (Option PluginNode)) (s : ByteStream) :
    Option PluginNode :=
  (nodes.filterMap id).find? (fun n => n.enabled && (n.validateRaw s).1)

/-- The detection loop returns the format of the first registered,
enabled, validating node, or FIF_UNKNOWN. -/
theorem scanNodes_eq_firstValidating (nodes : List (Option PluginNode))
    (s : ByteStream) :
    (scanNodes nodes s).1 =
      match firstValidating nodes s with
      | some n => n.fif
      | none => FIF.unknown := by
  induction nodes with
  | nil => rfl
  | cons node rest ih =>
      cases node with
      | none => simpa [scanNodes, firstValidating] using ih
      | some n =>
          by_cases he : n.enabled
          · by_cases hv : (n.validateRaw s).1
            · simp [scanNodes, nodeValidate, he, hv, firstValidating]
            · simpa [scanNodes, nodeValidate, he, hv, firstValidating,
                List.find?_cons] using ih
          · simpa [scanNodes, he, firstValidating, List.find?_cons] using ih

/-- C4: `FreeImage_GetFileTypeFromHandle` returns the format of the
first registered, enabled codec (in registration order) whose validate
accepts the stream; if that format is TIFF and the RAW codec is
registered and also validates, RAW is returned instead; a null handle or
no validating codec yields FIF_UNKNOWN (a normal result, not an
error). -/
theorem getFileTypeFromHandle_spec (nodes : List (Option PluginNode))
    (s : ByteStream) :
    FreeImage_GetFileTypeFromHandle nodes none = (FIF.unknown, none) ∧
    (FreeImage_GetFileTypeFromHandle nodes (some s)).1 =
      (match firstValidating nodes s with
       | none => FIF.unknown
       | some n =>
           if n.fif = FIF.tiff ∧ (validateFIF nodes FIF.raw s).1 = true then
             FIF.raw
           else n.fif) := by
  refine ⟨rfl, ?_⟩
  simp only [FreeImage_GetFileTypeFromHandle, scanNodes_stream]
  have hscan := scanNodes_eq_firstValidating nodes s
  cases hfv : firstValidating nodes s with
  | none =>
      rw [hfv] at hscan
      simp only [hscan]
      simp
  | some n =>
      rw [hfv] at hscan
      simp only [hscan]
      by_cases ht : n.fif = FIF.tiff
      · by_cases hr : (validateFIF nodes FIF.raw s).1 = true
        · simp [ht, hr]
        · simp only [Bool.not_eq_true] at hr
          simp [ht, hr]
      · simp [ht]

/-! ## GIF playback compositing (PluginGIF.cpp, `Load`, lines 718-786) -/

/-- Per-frame data the playback path reads for each visited frame: the
graphic-control-extension transparency flag and disposal method, and the
image-descriptor rectangle (struct `PageInfo` plus the `have_transparent`
loop variable). Disposal methods: 0 unspecified, 1 leave, 2 restore to
background, 3 restore to previous. -/
structure PageInfo where
  disposal_method : Nat
  left : Nat
  top : Nat
  width : Nat
  height : Nat
  haveTransparent : Bool
deriving Repr, DecidableEq

/-- The backward scan of the playback path (lines 720-759): starting at
the requested page, walk toward frame 0; once past the requested page,
a frame covering the whole logical screen stops the scan: a
restore-to-background frame is dropped and the scan stops just above it;
an opaque frame with a disposal other than restore-to-previous stops the
scan at itself; `start` never goes below 0 (line 757). -/
def gifFindStart (frames : Nat → PageInfo) (lw lh endIdx start : Nat) : Nat :=
  let fr := frames start
  let covers := fr.left = 0 ∧ fr.top = 0 ∧ fr.width = lw ∧ fr.height = lh
  if start ≠ endIdx ∧ covers ∧ fr.disposal_method = 2 then
    start + 1
  else if start ≠ endIdx ∧ covers ∧ fr.disposal_method ≠ 2 ∧
      fr.disposal_method ≠ 3 ∧ fr.haveTransparent = false then
    start
  else if h : start = 0 then 0
  else gifFindStart frames lw lh endIdx (start - 1)
termination_by start

/-- The forward rendering loop (lines 762-827): pages from `start` to
`end` in order; a page other than the requested one whose disposal is
restore-to-previous is skipped, and one whose disposal is
restore-to-background is replaced by a background fill; every other page
is decoded (the recursive `Load(io, handle, page, GIF_LOAD256, data)`
call at line 786). This function lists the pages that are decoded. -/
def gifDecodedPages (frames : Nat → PageInfo) (startIdx endIdx : Nat) :
    List Nat :=
  (((List.range (endIdx + 1 - startIdx)).map (· + startIdx)).filter
    (fun p => p = endIdx ∨
      ((frames p).disposal_method ≠ 3 ∧ (frames p).disposal_method ≠ 2)))

/-- The set of pages decoded when rendering page `endIdx` in playback
mode: the backward scan picks the starting page, the forward loop
decodes the non-skipped pages. -/
def gifPlaybackDecodedPages (frames : Nat → PageInfo) (lw lh endIdx : Nat) :
    List Nat :=
  gifDecodedPages frames (gifFindStart frames lw lh endIdx endIdx) endIdx

/-- A keyframe in the sense of the scan: a frame covering the whole
canvas that either restores to background, or is opaque with a disposal
other than restore-to-previous. -/
def isKeyframe (frames : Nat → PageInfo) (lw lh j : Nat) : Prop :=
  (frames j).left = 0 ∧ (frames j).top = 0 ∧ (frames j).width = lw ∧
    (frames j).height = lh ∧
    ((frames j).disposal_method = 2 ∨
      ((frames j).disposal_method ≠ 3 ∧ (frames j).haveTransparent = false))

/-- The backward scan never walks past a keyframe strictly below the
requested page. -/
theorem gifFindStart_ge_keyframe (frames : Nat → PageInfo) (lw lh endIdx : Nat)
    (j : Nat) (hj : isKeyframe frames lw lh j) (hje : j < endIdx) :
    ∀ start, j ≤ start → start ≤ endIdx →
      j ≤ gifFindStart frames lw lh endIdx start := by
  intro start
  induction start with
  | zero =>
      intro h1 _
      have hj0 : j = 0 := Nat.le_zero.mp h1
      subst hj0
      exact Nat.zero_le _
  | succ k ih =>
      intro h1 h2
      rw [gifFindStart]
      rcases Nat.lt_or_ge j (k + 1) with hlt | hge
      · split
        · omega
        · split
          · omega
          · split
            · omega
            · simpa using ih (by omega) (by omega)
      · -- j = k + 1 < endIdx: the scan examines the keyframe itself and
        -- stops at it or just above it.
        have hj' : j = k + 1 := by omega
        subst hj'
        obtain ⟨hl, ht, hw, hh, hd⟩ := hj
        have hne' : k + 1 ≠ endIdx := by omega
        rcases hd with hd2 | ⟨hd3, htr⟩
        · rw [if_pos ⟨hne', ⟨hl, ht, hw, hh⟩, hd2⟩]; omega
        · by_cases hd2 : (frames (k + 1)).disposal_method = 2
          · rw [if_pos ⟨hne', ⟨hl, ht, hw, hh⟩, hd2⟩]; omega
          · rw [if_neg (by tauto), if_pos ⟨hne', ⟨hl, ht, hw, hh⟩, hd2, hd3, htr⟩]

/-- C7: the playback backward scan stops at the nearest keyframe rather
than at frame 0 (first conjunct), and in particular for a 3-frame
animation whose frame 1 covers the whole logical canvas with disposal
restore-to-background, rendering frame 2 starts at frame 2 and decodes
only frame 2 — frame 0's image data is never decoded. -/
theorem gifPlayback_stops_at_keyframe (frames : Nat → PageInfo) (lw lh : Nat)
    (hl : (frames 1).left = 0) (ht : (frames 1).top = 0)
    (hw : (frames 1).width = lw) (hh : (frames 1).height = lh)
    (hd : (frames 1).disposal_method = 2) :
    (∀ endIdx j start, isKeyframe frames lw lh j → j < endIdx → j ≤ start →
      start ≤ endIdx → j ≤ gifFindStart frames lw lh endIdx start) ∧
    gifFindStart frames lw lh 2 2 = 2 ∧
    gifPlaybackDecodedPages frames lw lh 2 = [2] := by
  have hstart : gifFindStart frames lw lh 2 2 = 2 := by
    rw [gifFindStart]
    simp only [ne_eq, not_true_eq_false, false_and, if_false, dite_eq_ite,
      if_neg (by omega : ¬ (2 : Nat) = 0)]
    rw [gifFindStart]
    have : (2 : Nat) - 1 = 1 := by omega
    rw [this] at *
    rw [if_pos ⟨by omega, ⟨hl, ht, hw, hh⟩, hd⟩]
  refine ⟨fun endIdx j start hj hje h1 h2 =>
    gifFindStart_ge_keyframe frames lw lh endIdx j hj hje start h1 h2, hstart, ?_⟩
  unfold gifPlaybackDecodedPages
  rw [hstart]
  unfold gifDecodedPages
  norm_num [List.range_succ, List.filter]

/-- Witness for `gifPlayback_stops_at_keyframe`: a concrete 3-frame
animation on a 4-by-3 canvas whose middle frame is a full-canvas
restore-to-background frame. -/
theorem gifPlayback_stops_at_keyframe_witness :
    gifFindStart
        (fun j => if j = 1 then ⟨2, 0, 0, 4, 3, false⟩ else ⟨1, 1, 1, 2, 2, true⟩)
        4 3 2 2 = 2 ∧
    gifPlaybackDecodedPages
        (fun j => if j = 1 then ⟨2, 0, 0, 4, 3, false⟩ else ⟨1, 1, 1, 2, 2, true⟩)
        4 3 2 = [2] := by
  have h := gifPlayback_stops_at_keyframe
    (fun j => if j = 1 then ⟨2, 0, 0, 4, 3, false⟩ else ⟨1, 1, 1, 2, 2, true⟩)
    4 3 (by decide) (by decide) (by decide) (by decide) (by decide)
  exact ⟨h.2.1, h.2.2⟩

/-! ## BMP RLE decoders (PluginBMP.cpp, `LoadPixelDataRLE8` / `LoadPixelDataRLE4`)

Both decoders are modelled as functions from the input byte stream to a
success flag plus the list of pixel writes performed (including writes
performed before a failing read).  The IO boundary is modelled as
delivering a read item fully or failing without storing anything, and a
read of a non-positive byte count fails (as `fread` does for a zero or
(after `size_t` conversion) enormous size).  Each loop iteration
consumes at least one input byte, so the structural `fuel` argument,
instantiated with the input length plus one by the wrappers, is never
exhausted; the `fuel = 0` case returns failure and is unreachable from
the wrappers. -/

/-- One pixel write performed by the 8-bit RLE decoder: destination
row (scanline), column, stored value. -/
structure PixelWrite where
  row : Nat
  col : Nat
  val : Nat
deriving Repr, DecidableEq

/-- The loop of `LoadPixelDataRLE8` (PluginBMP.cpp lines 347-450).
State: current `scanline` and `bits` (column).  A status byte of 0
introduces end-of-line, end-of-bitmap, delta, or absolute mode; any
other status byte is an encoded run.  Copy counts are clamped to
`width - bits` (as signed arithmetic: a negative remainder yields no
writes, and in absolute mode a failing read). -/
def rle8Go (width height : Nat) :
    Nat → List Nat → Nat → Nat → Bool × List PixelWrite
  | 0, _, _, _ => (false, [])
  | _ + 1, [], _, _ => (false, [])
  | fuel + 1, 0 :: rest, scanline, bits =>
      match rest with
      | [] => (false, [])
      | 0 :: rest' => rle8Go width height fuel rest' (scanline + 1) 0
      | 1 :: _ => (true, [])
      | 2 :: rest' =>
          match rest' with
          | dx :: dy :: rest'' =>
              rle8Go width height fuel rest'' (scanline + dy) (bits + dx)
          | _ => (false, [])
      | status :: rest' =>
          -- absolute mode (status at least 3)
          if height ≤ scanline then (true, [])
          else
            let count : Int := min (status : Int) ((width : Int) - (bits : Int))
            if 0 < count then
              if count.toNat ≤ rest'.length then
                let dataBytes := rest'.take count.toNat
                let writes := (List.range count.toNat).map
                  (fun i => PixelWrite.mk scanline (bits + i) (dataBytes.getD i 0))
                let afterData := rest'.drop count.toNat
                if status % 2 = 1 then
                  match afterData with
                  | [] => (false, writes)
                  | _pad :: rest'' =>
                      let r := rle8Go width height fuel rest'' scanline (bits + status)
                      (r.1, writes ++ r.2)
                else
                  let r := rle8Go width height fuel afterData scanline (bits + status)
                  (r.1, writes ++ r.2)
              else (false, [])
            else (false, [])
  | fuel + 1, status :: rest, scanline, bits =>
      -- encoded run
      if height ≤ scanline then (true, [])
      else
        match rest with
        | [] => (false, [])
        | v :: rest' =>
            let count : Int := min (status : Int) ((width : Int) - (bits : Int))
            let writes := (List.range count.toNat).map
              (fun i => PixelWrite.mk scanline (bits + i) v)
            let r := rle8Go width height fuel rest' scanline (bits + count.toNat)
            (r.1, writes ++ r.2)

/-- `LoadPixelDataRLE8` on a whole input stream. -/
def LoadPixelDataRLE8 (width height : Nat) (input : List Nat) :
    Bool × List PixelWrite :=
  rle8Go width height (input.length + 1) input 0 0

/-- The loop of `LoadPixelDataRLE4` (PluginBMP.cpp lines 208-336),
which decodes into a flat `width * height` byte buffer (`pixels`,
wholly converted into the bitmap rows afterwards).  State: `scanline`,
`bits`, and the flat write cursor `q`.  The loop stops successfully
when the scanline or the cursor leaves the buffer; run lengths are
clamped to `end - q`.  Writes are pairs of flat index and nibble
value. -/
def rle4Go (width height : Nat) :
    Nat → List Nat → Nat → Nat → Nat → Bool × List (Nat × Nat)
  | 0, _, _, _, _ => (false, [])
  | fuel + 1, input, scanline, bits, q =>
      if height ≤ scanline ∨ width * height ≤ q then (true, [])
      else
        match input with
        | [] => (false, [])
        | 0 :: rest =>
            match rest with
            | [] => (false, [])
            | 0 :: rest' =>
                rle4Go width height fuel rest' (scanline + 1) 0
                  ((scanline + 1) * width)
            | 1 :: _ => (true, [])
            | 2 :: rest' =>
                match rest' with
                | dx :: dy :: rest'' =>
                    rle4Go width height fuel rest'' (scanline + dy) (bits + dx)
                      ((scanline + dy) * width + (bits + dx))
                | _ => (false, [])
            | status :: rest' =>
                -- absolute mode: nibble pairs, one source byte per two pixels
                let clamped := min status (width * height - q)
                let need := (clamped + 1) / 2
                if need ≤ rest'.length then
                  let dataBytes := rest'.take need
                  let writes := (List.range clamped).map
                    (fun i => (q + i,
                      if i % 2 = 1 then (dataBytes.getD (i / 2) 0) &&& 0x0F
                      else ((dataBytes.getD (i / 2) 0) >>> 4) &&& 0x0F))
                  let afterData := rest'.drop need
                  if clamped % 4 = 1 ∨ clamped % 4 = 2 then
                    match afterData with
                    | [] => (false, writes)
                    | _pad :: rest'' =>
                        let r := rle4Go width height fuel rest''
                          scanline (bits + clamped) (q + clamped)
                        (r.1, writes ++ r.2)
                  else
                    let r := rle4Go width height fuel afterData
                      scanline (bits + clamped) (q + clamped)
                    (r.1, writes ++ r.2)
                else
                  -- the read of a source byte fails midway: the writes
                  -- fed by the bytes that were available have happened
                  let writes := (List.range (min clamped (2 * rest'.length))).map
                    (fun i => (q + i,
                      if i % 2 = 1 then (rest'.getD (i / 2) 0) &&& 0x0F
                      else ((rest'.getD (i / 2) 0) >>> 4) &&& 0x0F))
                  (false, writes)
        | status :: rest =>
            -- encoded run of nibble pairs from one value byte
            let clamped := min status (width * height - q)
            match rest with
            | [] => (false, [])
            | v :: rest' =>
                let writes := (List.range clamped).map
                  (fun i => (q + i,
                    if i % 2 = 1 then v &&& 0x0F else (v >>> 4) &&& 0x0F))
                let r := rle4Go width height fuel rest'
                  scanline (bits + clamped) (q + clamped)
                (r.1, writes ++ r.2)

/-- `LoadPixelDataRLE4` on a whole input stream: the flat-buffer decode
loop (the subsequent nibble-packing conversion reads that buffer and
writes only rows `0 ≤ y < height` at columns `0 ≤ x < width` by
construction). -/
def LoadPixelDataRLE4 (width height : Nat) (input : List Nat) :
    Bool × List (Nat × Nat) :=
  rle4Go width height (input.length + 1) input 0 0 0

/-- All writes of the 8-bit RLE decode loop stay inside the
width-by-height pixel area, from any loop state. -/
theorem rle8Go_writes_bounded (width height : Nat) (fuel : Nat) :
    ∀ (input : List Nat) (scanline bits : Nat),
      ∀ w ∈ (rle8Go width height fuel input scanline bits).2,
        w.row < height ∧ w.col < width := by
  induction fuel with
  | zero => intro input scanline bits w hw; simp [rle8Go] at hw
  | succ fuel ih =>
      intro input scanline bits w hw
      match input with
      | [] => simp [rle8Go] at hw
      | 0 :: rest =>
          match rest with
          | [] => simp [rle8Go] at hw
          | 0 :: rest' => exact ih rest' (scanline + 1) 0 w hw
          | 1 :: rest' => simp [rle8Go] at hw
          | 2 :: rest' =>
              match rest' with
              | dx :: dy :: rest'' => exact ih rest'' (scanline + dy) (bits + dx) w hw
              | [] => simp [rle8Go] at hw
              | [dx] => simp [rle8Go] at hw
          | (s + 3) :: rest' =>
              rw [rle8Go] at hw <;> try omega
              simp only at hw
              by_cases hsl : height ≤ scanline
              · simp [hsl] at hw
              · rw [if_neg hsl] at hw
                set count : Int := min ((s + 3 : Nat) : Int) ((width : Int) - (bits : Int)) with hcount
                by_cases hpos : 0 < count
                · rw [if_pos hpos] at hw
                  by_cases hlen : count.toNat ≤ rest'.length
                  · rw [if_pos hlen] at hw
                    have hbound : ∀ i < count.toNat, scanline < height ∧ bits + i < width := by
                      intro i hi
                      refine ⟨by omega, ?_⟩
                      have h1 : count ≤ (width : Int) - (bits : Int) := min_le_right _ _
                      omega
                    by_cases hodd : (s + 3) % 2 = 1
                    · rw [if_pos hodd] at hw
                      match hd : rest'.drop count.toNat with
                      | [] =>
                          rw [hd] at hw
                          simp only [List.mem_map, List.mem_range] at hw
                          obtain ⟨i, hi, rfl⟩ := hw
                          exact hbound i hi
                      | p :: rest'' =>
                          rw [hd] at hw
                          simp only [List.mem_append, List.mem_map, List.mem_range] at hw
                          rcases hw with ⟨i, hi, rfl⟩ | hw
                          · exact hbound i hi
                          · exact ih rest'' scanline (bits + (s + 3)) w hw
                    · rw [if_neg hodd] at hw
                      simp only [List.mem_append, List.mem_map, List.mem_range] at hw
                      rcases hw with ⟨i, hi, rfl⟩ | hw
                      · exact hbound i hi
                      · exact ih _ scanline (bits + (s + 3)) w hw
                  · simp [hlen] at hw
                · simp [hpos] at hw
      | (s + 1) :: rest =>
          rw [rle8Go.eq_def] at hw
          simp only [] at hw
          by_cases hsl : height ≤ scanline
          · simp [hsl] at hw
          · rw [if_neg hsl] at hw
            match rest with
            | [] => simp at hw
            | v :: rest' =>
                simp only [List.mem_append, List.mem_map, List.mem_range] at hw
                rcases hw with ⟨i, hi, rfl⟩ | hw
                · constructor
                  · show scanline < height
                    omega
                  · show bits + i < width
                    omega
                · exact ih rest' scanline _ w hw

/-- All writes of the 4-bit RLE decode loop stay inside the flat
`width * height` pixel buffer, from any loop state. -/
theorem rle4Go_writes_bounded (width height : Nat) (fuel : Nat) :
    ∀ (input : List Nat) (scanline bits q : Nat),
      ∀ w ∈ (rle4Go width height fuel input scanline bits q).2,
        w.1 < width * height := by
  induction fuel with
  | zero => intro input scanline bits q w hw; simp [rle4Go] at hw
  | succ fuel ih =>
      intro input scanline bits q w hw
      rw [rle4Go.eq_def] at hw
      simp only [] at hw
      by_cases hguard : height ≤ scanline ∨ width * height ≤ q
      · simp [hguard] at hw
      · rw [if_neg hguard] at hw
        have hq : q < width * height := by omega
        match input with
        | [] => simp at hw
        | 0 :: rest =>
            match rest with
            | [] => simp at hw
            | 0 :: rest' => exact ih rest' (scanline + 1) 0 _ w hw
            | 1 :: rest' => simp at hw
            | 2 :: rest' =>
                match rest' with
                | dx :: dy :: rest'' => exact ih rest'' _ _ _ w hw
                | [] => simp at hw
                | [dx] => simp at hw
            | (s + 3) :: rest' =>
                simp only at hw
                by_cases hlen : ((min (s + 3) (width * height - q)) + 1) / 2 ≤ rest'.length
                · rw [if_pos hlen] at hw
                  by_cases hpad : min (s + 3) (width * height - q) % 4 = 1 ∨
                      min (s + 3) (width * height - q) % 4 = 2
                  · rw [if_pos hpad] at hw
                    match hd : rest'.drop ((min (s + 3) (width * height - q) + 1) / 2) with
                    | [] =>
                        rw [hd] at hw
                        simp only [List.mem_map, List.mem_range] at hw
                        obtain ⟨i, hi, rfl⟩ := hw
                        show q + i < width * height
                        omega
                    | p :: rest'' =>
                        rw [hd] at hw
                        simp only [List.mem_append, List.mem_map, List.mem_range] at hw
                        rcases hw with ⟨i, hi, rfl⟩ | hw
                        · show q + i < width * height
                          omega
                        · exact ih rest'' scanline _ _ w hw
                  · rw [if_neg hpad] at hw
                    simp only [List.mem_append, List.mem_map, List.mem_range] at hw
                    rcases hw with ⟨i, hi, rfl⟩ | hw
                    · show q + i < width * height
                      omega
                    · exact ih _ scanline _ _ w hw
                · rw [if_neg hlen] at hw
                  simp only [List.mem_map, List.mem_range] at hw
                  obtain ⟨i, hi, rfl⟩ := hw
                  show q + i < width * height
                  have : min (min (s + 3) (width * height - q)) (2 * rest'.length) ≤
                      width * height - q := by omega
                  omega
        | (s + 1) :: rest =>
            match rest with
            | [] => simp at hw
            | v :: rest' =>
                simp only [List.mem_append, List.mem_map, List.mem_range] at hw
                rcases hw with ⟨i, hi, rfl⟩ | hw
                · show q + i < width * height
                  omega
                · exact ih rest' scanline _ _ w hw

/-- C5: for every input stream, including corrupt ones whose control
bytes declare counts past the destination, the BMP RLE4 and RLE8
decoders clamp every copy/repeat count to the remaining space and never
write outside the width-by-height destination pixel area (the RLE4
decoder writes its flat `width * height` staging buffer, the RLE8
decoder writes rows below `height` at columns below `width`). -/
theorem rle_decoders_never_write_out_of_bounds (width height : Nat)
    (input : List Nat) :
    (∀ w ∈ (LoadPixelDataRLE4 width height input).2, w.1 < width * height) ∧
    (∀ w ∈ (LoadPixelDataRLE8 width height input).2,
      w.row < height ∧ w.col < width) :=
  ⟨fun w hw => rle4Go_writes_bounded width height _ input 0 0 0 w hw,
   fun w hw => rle8Go_writes_bounded width height _ input 0 0 w hw⟩

/-- Witness for `rle_decoders_never_write_out_of_bounds`: a 3-by-2
image fed a control byte declaring a run of 200 pixels; the decoders
clamp it (RLE8 writes 3 pixels of row 0, RLE4 fills the 6-byte staging
buffer) and every recorded write is in bounds. -/
theorem rle_decoders_never_write_out_of_bounds_witness :
    PixelWrite.mk 0 2 18 ∈ (LoadPixelDataRLE8 3 2 [200, 18]).2 ∧
    ((0 : Nat) < 2 ∧ (2 : Nat) < 3) ∧
    (5, 2) ∈ (LoadPixelDataRLE4 3 2 [200, 18]).2 ∧ (5 : Nat) < 3 * 2 := by
  have h := rle_decoders_never_write_out_of_bounds 3 2 [200, 18]
  have hm8 : PixelWrite.mk 0 2 18 ∈ (LoadPixelDataRLE8 3 2 [200, 18]).2 := by
    decide
  have hm4 : (5, 2) ∈ (LoadPixelDataRLE4 3 2 [200, 18]).2 := by decide
  exact ⟨hm8, h.2 _ hm8, hm4, h.1 _ hm4⟩

/-! ## BMP byte-oriented RLE encoder (PluginBMP.cpp, `RLEEncodeLine`) -/

/-- Flush the literal pool of `RLEEncodeLine` (the `switch (buffer_size)`
at lines 1168-1197 and 1245-1274): an empty pool emits nothing; pools of
one or two bytes are emitted as count-1 repeat runs; larger pools are
emitted as an absolute run `0, size, data`, padded to an even byte count
(the source skips the pad byte in the preallocated target without
writing it; the pad is modelled as the byte 0, which the decoder
discards). -/
def rleFlushPool (pool : List Nat) : List Nat :=
  match pool with
  | [] => []
  | [b0] => [1, b0]
  | [b0, b1] => [1, b0, 1, b1]
  | _ => [0, pool.length] ++ pool ++ (if pool.length % 2 = 1 then [0] else [])

/-- The solid-block scan of `RLEEncodeLine` (lines 1156-1160): advance
`j` while the next byte continues the run, stopping before the line end
and before `jmax`. -/
def rleRunEnd (src : List Nat) (jmax : Nat) : Nat → Nat → Nat
  | 0, j => j
  | fuel + 1, j =>
      if j < src.length - 1 ∧ j < jmax ∧ src.getD j 0 = src.getD (j + 1) 0 then
        rleRunEnd src jmax fuel (j + 1)
      else j

/-- Append one byte to the literal pool, flushing the pool as an
absolute run when it reaches 254 bytes (lines 1206-1221 and
1226-1240). -/
def rlePoolPush (pool : List Nat) (b : Nat) : List Nat × List Nat :=
  let pool' := pool ++ [b]
  if pool'.length = 254 then ([0, 254] ++ pool', []) else ([], pool')

/-- The inner `for (k ...)` loop of the short-block case (lines
1206-1221): push the `n` bytes starting at index `i` into the pool one
by one, collecting the output of any intermediate 254-byte flushes. -/
def rlePushRun (src : List Nat) (i n : Nat) (pool : List Nat) :
    List Nat × List Nat :=
  (List.range n).foldl (fun acc k =>
    let r := rlePoolPush acc.2 (src.getD (i + k) 0)
    (acc.1 ++ r.1, r.2)) ([], pool)

/-- The main loop of `RLEEncodeLine` (lines 1152-1241): at a solid block
of more than 3 equal bytes, flush the pool and emit a repeat run;
shorter blocks and single bytes accumulate into the pool.  After the
loop, the pool is flushed and the end-of-line marker `0, 0` is written
(lines 1245-1279).  `fuel` bounds the iterations; the wrapper supplies
`src.length + 1`, which cannot run out since each iteration advances the
index. -/
def rleEncLoop (src : List Nat) : Nat → Nat → List Nat → List Nat
  | 0, _, pool => rleFlushPool pool ++ [0, 0]
  | fuel + 1, i, pool =>
      if i < src.length then
        if i < src.length - 1 ∧ src.getD i 0 = src.getD (i + 1) 0 then
          let j := rleRunEnd src (254 + i) src.length (i + 1)
          if 3 < j - i + 1 then
            rleFlushPool pool ++ [j - i + 1, src.getD i 0] ++
              rleEncLoop src fuel (j + 1) []
          else
            let pushed := rlePushRun src i (j - i + 1) pool
            pushed.1 ++ rleEncLoop src fuel (j + 1) pushed.2
        else
          let r := rlePoolPush pool (src.getD i 0)
          r.1 ++ rleEncLoop src fuel (i + 1) r.2
      else rleFlushPool pool ++ [0, 0]

/-- `RLEEncodeLine`: encode one line of source bytes. -/
def RLEEncodeLine (src : List Nat) : List Nat :=
  rleEncLoop src (src.length + 1) 0 []

/-- A whole image as saved by the BMP RLE8 path (`Save`, lines
1388-1404): each row encoded by `RLEEncodeLine` in row order, then the
end-of-bitmap marker `0, 1`. -/
def rleEncodeImage (lines : List (List Nat)) : List Nat :=
  (lines.map RLEEncodeLine).flatten ++ [0, 1]

/-! ### Round-trip of the byte-oriented RLE codec -/

/-- The 8-bit RLE decode loop at its canonical fuel (one unit per input
byte plus one, which the loop can never exhaust). -/
def rle8D (width height : Nat) (input : List Nat) (sl bits : Nat) :
    Bool × List PixelWrite :=
  rle8Go width height (input.length + 1) input sl bits

/-- Any sufficient fuel gives the canonical result: every loop iteration
consumes at least one input byte. -/
theorem rle8Go_fuel_eq (width height : Nat) :
    ∀ fuel input sl bits, List.length input < fuel →
      rle8Go width height fuel input sl bits = rle8D width height input sl bits := by
  intro fuel
  induction fuel using Nat.strong_induction_on with
  | _ fuel ih =>
      intro input sl bits hlen
      match fuel, hlen with
      | fuel + 1, hlen =>
        unfold rle8D
        match input with
        | [] => rw [rle8Go, rle8Go]
        | 0 :: rest =>
            match rest with
            | [] => rw [rle8Go, rle8Go]
            | 0 :: rest' =>
                show rle8Go width height (fuel + 1) (0 :: 0 :: rest') sl bits =
                  rle8Go width height (rest'.length + 2 + 1) (0 :: 0 :: rest') sl bits
                rw [rle8Go, rle8Go]
                rw [ih fuel (by omega) rest' _ _ (by simp at hlen; omega),
                  ih (rest'.length + 2) (by simp at hlen; omega) rest' _ _ (by omega)]
            | 1 :: rest' => rw [rle8Go, rle8Go] <;> try simp
            | 2 :: rest' =>
                match rest' with
                | [] => rw [rle8Go, rle8Go] <;> try simp
                | [dx] => rw [rle8Go, rle8Go] <;> try simp
                | dx :: dy :: rest'' =>
                    show rle8Go width height (fuel + 1) (0 :: 2 :: dx :: dy :: rest'') sl bits =
                      rle8Go width height (rest''.length + 4 + 1) (0 :: 2 :: dx :: dy :: rest'') sl bits
                    rw [rle8Go, rle8Go] <;> try simp
                    rw [ih fuel (by omega) rest'' _ _ (by simp at hlen; omega),
                      ih (rest''.length + 4) (by simp at hlen; omega) rest'' _ _ (by omega)]
            | (s + 3) :: rest' =>
                show rle8Go width height (fuel + 1) (0 :: (s + 3) :: rest') sl bits =
                  rle8Go width height (rest'.length + 2 + 1) (0 :: (s + 3) :: rest') sl bits
                rw [rle8Go, rle8Go] <;> try omega
                simp only
                by_cases hsl : height ≤ sl
                · simp [hsl]
                · rw [if_neg hsl, if_neg hsl]
                  set count : Int := min ((s + 3 : Nat) : Int) ((width : Int) - (bits : Int)) with hc
                  by_cases hpos : 0 < count
                  · rw [if_pos hpos, if_pos hpos]
                    by_cases hcl : count.toNat ≤ rest'.length
                    · rw [if_pos hcl, if_pos hcl]
                      by_cases hodd : (s + 3) % 2 = 1
                      · rw [if_pos hodd, if_pos hodd]
                        match hd : rest'.drop count.toNat with
                        | [] => rfl
                        | p :: rest'' =>
                            have hlt : rest''.length < rest'.length := by
                              have := congrArg List.length hd
                              simp only [List.length_drop, List.length_cons] at this
                              omega
                            simp only []
                            rw [ih fuel (by omega) rest'' _ _ (by simp at hlen; omega),
                              ih (rest'.length + 2) (by simp at hlen; omega) rest'' _ _ (by omega)]
                      · rw [if_neg hodd, if_neg hodd]
                        have hlt : (rest'.drop count.toNat).length ≤ rest'.length := by
                          simp [List.length_drop]
                        rw [ih fuel (by omega) (rest'.drop count.toNat) _ _ (by simp at hlen; simp [List.length_drop]; omega),
                          ih (rest'.length + 2) (by simp at hlen; omega) (rest'.drop count.toNat) _ _ (by simp [List.length_drop]; omega)]
                    · rw [if_neg hcl, if_neg hcl]
                  · rw [if_neg hpos, if_neg hpos]
        | (s + 1) :: rest =>
            match rest with
            | [] =>
                show rle8Go width height (fuel + 1) [s + 1] sl bits =
                  rle8Go width height (1 + 1) [s + 1] sl bits
                rw [rle8Go.eq_def, rle8Go.eq_def]
                rfl
            | v :: rest' =>
                show rle8Go width height (fuel + 1) ((s + 1) :: v :: rest') sl bits =
                  rle8Go width height (rest'.length + 2 + 1) ((s + 1) :: v :: rest') sl bits
                rw [rle8Go.eq_def, rle8Go.eq_def]
                simp only
                by_cases hsl : height ≤ sl
                · simp [hsl]
                · rw [if_neg hsl, if_neg hsl]
                  rw [ih fuel (by omega) rest' _ _ (by simp at hlen; omega),
                    ih (rest'.length + 2) (by simp at hlen; omega) rest' _ _ (by omega)]

/-- Decoding a repeat run `n, v` (with room in the row) writes `n` copies
of `v` and continues after it. -/
theorem rle8D_repeat (width height : Nat) (n v : Nat) (K : List Nat)
    (r bits : Nat) (hr : r < height) (hn : 1 ≤ n) (hfit : bits + n ≤ width) :
    rle8D width height (n :: v :: K) r bits =
      ((rle8D width height K r (bits + n)).1,
       (List.range n).map (fun i => PixelWrite.mk r (bits + i) v) ++
         (rle8D width height K r (bits + n)).2) := by
  obtain ⟨s, rfl⟩ : ∃ s, n = s + 1 := ⟨n - 1, by omega⟩
  show rle8Go width height (K.length + 2 + 1) ((s + 1) :: v :: K) r bits = _
  rw [rle8Go.eq_def]
  simp only
  rw [if_neg (by omega : ¬ height ≤ r)]
  have hct : (min (((s : Nat) + 1 : Nat) : Int) ((width : Int) - (bits : Int))).toNat
      = s + 1 := by omega
  rw [hct, rle8Go_fuel_eq width height (K.length + 2) K r (bits + (s + 1)) (by omega)]

/-- Decoding an absolute run `0, n, data(, pad)` (with room in the row,
`n` at least 3, `data` of length `n`, and a pad byte exactly when `n` is
odd) writes the data bytes and continues after them. -/
theorem rle8D_literal (width height : Nat) (n p : Nat) (data pad K : List Nat)
    (r bits : Nat) (hr : r < height) (hn : 3 ≤ n) (hfit : bits + n ≤ width)
    (hdata : data.length = n) (hpad : pad = if n % 2 = 1 then [p] else []) :
    rle8D width height (0 :: n :: (data ++ pad ++ K)) r bits =
      ((rle8D width height K r (bits + n)).1,
       (List.range n).map (fun i => PixelWrite.mk r (bits + i) (data.getD i 0)) ++
         (rle8D width height K r (bits + n)).2) := by
  obtain ⟨s, rfl⟩ : ∃ s, n = s + 3 := ⟨n - 3, by omega⟩
  show rle8Go width height ((data ++ pad ++ K).length + 2 + 1)
      (0 :: (s + 3) :: (data ++ pad ++ K)) r bits = _
  rw [rle8Go.eq_def]
  simp only
  rw [if_neg (by omega : ¬ height ≤ r)]
  have hct : (min (((s : Nat) + 3 : Nat) : Int) ((width : Int) - (bits : Int))).toNat
      = s + 3 := by omega
  have hpos : (0 : Int) < min (((s : Nat) + 3 : Nat) : Int) ((width : Int) - (bits : Int)) := by
    omega
  rw [if_pos hpos, hct]
  have hlen3 : s + 3 ≤ (data ++ pad ++ K).length := by
    simp only [List.length_append, hdata]
    omega
  rw [if_pos hlen3]
  have htake : (data ++ pad ++ K).take (s + 3) = data := by
    rw [List.append_assoc, List.take_append_of_le_length (by omega),
      List.take_of_length_le (by omega)]
  have hdrop : (data ++ pad ++ K).drop (s + 3) = pad ++ K := by
    rw [List.append_assoc, List.drop_append_of_le_length (by omega),
      List.drop_of_length_le (by omega)]
    simp [hdata]
  rw [htake, hdrop]
  by_cases hodd : (s + 3) % 2 = 1
  · rw [if_pos hodd]
    rw [hpad, if_pos hodd]
    simp only [List.cons_append, List.nil_append]
    rw [rle8Go_fuel_eq width height _ K r (bits + (s + 3)) (by simp; omega)]
  · rw [if_neg hodd]
    rw [hpad, if_neg hodd]
    simp only [List.nil_append]
    rw [rle8Go_fuel_eq width height _ K r (bits + (s + 3)) (by simp; omega)]

/-- Decoding the end-of-line marker `0, 0` advances to the next row. -/
theorem rle8D_eol (width height : Nat) (K : List Nat) (r bits : Nat) :
    rle8D width height (0 :: 0 :: K) r bits = rle8D width height K (r + 1) 0 := by
  show rle8Go width height (K.length + 2 + 1) (0 :: 0 :: K) r bits = _
  rw [rle8Go.eq_def]
  simp only
  rw [rle8Go_fuel_eq width height (K.length + 2) K (r + 1) 0 (by omega)]

/-- Decoding the end-of-bitmap marker `0, 1` stops with success. -/
theorem rle8D_eob (width height : Nat) (K : List Nat) (r bits : Nat) :
    rle8D width height (0 :: 1 :: K) r bits = (true, []) := by
  show rle8Go width height (K.length + 2 + 1) (0 :: 1 :: K) r bits = _
  rw [rle8Go.eq_def]

/-- The canonical writes of row `r`: columns `c0`, `c0+1`, ... carrying
the source line's bytes. -/
def colWrites (src : List Nat) (r c0 n : Nat) : List PixelWrite :=
  (List.range n).map (fun k => PixelWrite.mk r (c0 + k) (src.getD (c0 + k) 0))

/-- Splitting a canonical write range. -/
theorem colWrites_split (src : List Nat) (r c0 m n : Nat) :
    colWrites src r c0 (m + n) =
      colWrites src r c0 m ++ colWrites src r (c0 + m) n := by
  unfold colWrites
  rw [List.range_add, List.map_append, List.map_map]
  congr 1
  apply List.map_congr_left
  intro k hk
  simp [Function.comp, Nat.add_assoc]

/-- Bytes of a slice of the source line, read through `getD`. -/
theorem slice_getD (src : List Nat) (a p t : Nat) (ht : t < p)
    (hlen : a + p ≤ src.length) :
    ((src.drop a).take p).getD t 0 = src.getD (a + t) 0 := by
  have h1 : t < ((src.drop a).take p).length := by
    simp [List.length_take, List.length_drop]
    omega
  have h2 : a + t < src.length := by omega
  rw [List.getD_eq_getElem _ _ h1, List.getD_eq_getElem _ _ h2]
  rw [List.getElem_take, List.getElem_drop]

/-- Decoding a flushed literal pool holding the source bytes of columns
`bits ≤ c < bits + pool.length` writes exactly those columns and
continues after them. -/
theorem rleFlushPool_decodes (width height : Nat) (src pool K : List Nat)
    (r bits : Nat) (hr : r < height) (hfit : bits + pool.length ≤ width)
    (hpool : ∀ t < pool.length, pool.getD t 0 = src.getD (bits + t) 0) :
    rle8D width height (rleFlushPool pool ++ K) r bits =
      ((rle8D width height K r (bits + pool.length)).1,
       colWrites src r bits pool.length ++
         (rle8D width height K r (bits + pool.length)).2) := by
  match pool with
  | [] =>
      simp [rleFlushPool, colWrites]
  | [b0] =>
      show rle8D width height (1 :: b0 :: K) r bits = _
      rw [rle8D_repeat width height 1 b0 K r bits hr (by omega)
        (by simp at hfit; omega)]
      have hb0 := hpool 0 (by simp)
      simp only [List.getD_cons_zero] at hb0
      simp [colWrites, List.range_succ, hb0]
  | [b0, b1] =>
      show rle8D width height (1 :: b0 :: 1 :: b1 :: K) r bits = _
      rw [rle8D_repeat width height 1 b0 (1 :: b1 :: K) r bits hr (by omega)
        (by simp at hfit; omega)]
      rw [rle8D_repeat width height 1 b1 K r (bits + 1) hr (by omega)
        (by simp at hfit; omega)]
      have hb0 := hpool 0 (by simp)
      have hb1 := hpool 1 (by simp)
      simp only [List.getD_cons_zero, List.getD_cons_succ] at hb0 hb1
      have : bits + 1 + 1 = bits + 2 := by omega
      rw [this]
      simp [colWrites, List.range_succ, hb0, hb1]
  | b0 :: b1 :: b2 :: tl =>
      have h3 : 3 ≤ (b0 :: b1 :: b2 :: tl).length := by simp
      show rle8D width height
        (0 :: (b0 :: b1 :: b2 :: tl).length ::
          ((b0 :: b1 :: b2 :: tl) ++
            (if (b0 :: b1 :: b2 :: tl).length % 2 = 1 then [0] else []) ++ K))
        r bits = _
      rw [rle8D_literal width height (b0 :: b1 :: b2 :: tl).length 0
        (b0 :: b1 :: b2 :: tl)
        (if (b0 :: b1 :: b2 :: tl).length % 2 = 1 then [0] else []) K r bits hr
        h3 hfit rfl rfl]
      congr 1
      congr 1
      unfold colWrites
      apply List.map_congr_left
      intro k hk
      simp only [List.mem_range] at hk
      rw [hpool k hk]

/-- The run scan result is at least its starting index. -/
theorem rleRunEnd_ge (src : List Nat) (jmax : Nat) :
    ∀ fuel j0, j0 ≤ rleRunEnd src jmax fuel j0 := by
  intro fuel
  induction fuel with
  | zero => intro j0; rw [rleRunEnd]
  | succ fuel ih =>
      intro j0
      rw [rleRunEnd]
      split
      · exact Nat.le_trans (by omega) (ih (j0 + 1))
      · exact Nat.le_refl _

/-- The run scan never moves past the penultimate byte of the line. -/
theorem rleRunEnd_le (src : List Nat) (jmax : Nat) :
    ∀ fuel j0, j0 ≤ src.length - 1 → rleRunEnd src jmax fuel j0 ≤ src.length - 1 := by
  intro fuel
  induction fuel with
  | zero => intro j0 h; rw [rleRunEnd]; exact h
  | succ fuel ih =>
      intro j0 h
      rw [rleRunEnd]
      split
      · next hcond => exact ih (j0 + 1) (by omega)
      · exact h

/-- Every byte scanned over by the run scan equals its successor. -/
theorem rleRunEnd_run (src : List Nat) (jmax i : Nat) :
    ∀ fuel j0, (∀ t, i ≤ t → t < j0 → src.getD t 0 = src.getD (t + 1) 0) →
      ∀ t, i ≤ t → t < rleRunEnd src jmax fuel j0 →
        src.getD t 0 = src.getD (t + 1) 0 := by
  intro fuel
  induction fuel with
  | zero =>
      intro j0 hpre t ht1 ht2
      rw [rleRunEnd] at ht2
      exact hpre t ht1 ht2
  | succ fuel ih =>
      intro j0 hpre t ht1 ht2
      rw [rleRunEnd] at ht2
      by_cases hcond : j0 < src.length - 1 ∧ j0 < jmax ∧
          src.getD j0 0 = src.getD (j0 + 1) 0
      · rw [if_pos hcond] at ht2
        refine ih (j0 + 1) ?_ t ht1 ht2
        intro u hu1 hu2
        rcases Nat.lt_or_ge u j0 with h | h
        · exact hpre u hu1 h
        · have : u = j0 := by omega
          subst this
          exact hcond.2.2
      · rw [if_neg hcond] at ht2
        exact hpre t ht1 ht2

/-- In a run where each byte equals its successor, every byte equals the
first one. -/
theorem run_eq_head (src : List Nat) (i j : Nat)
    (h : ∀ t, i ≤ t → t < j → src.getD t 0 = src.getD (t + 1) 0) :
    ∀ t, i ≤ t → t ≤ j → src.getD t 0 = src.getD i 0 := by
  intro t
  induction t with
  | zero =>
      intro h1 _
      have : i = 0 := by omega
      rw [this]
  | succ t ih =>
      intro h1 h2
      rcases Nat.lt_or_ge i (t + 1) with hlt | hge
      · have := h t (by omega) (by omega)
        rw [← this]
        exact ih (by omega) (by omega)
      · have : i = t + 1 := by omega
        rw [this]

/-- Pushing the byte at source index `i` into a pool holding the source
bytes since column `i - pool.length` preserves the pool invariant and,
on a 254-byte flush, emits a chunk that decodes to exactly the covered
columns. -/
theorem rlePoolPush_decodes (width height : Nat) (src : List Nat) (r : Nat)
    (hr : r < height) (i : Nat) (pool : List Nat)
    (hpl : pool.length ≤ 253) (hpi : pool.length ≤ i)
    (hpool : ∀ t < pool.length, pool.getD t 0 = src.getD (i - pool.length + t) 0)
    (hi1 : i + 1 ≤ width) :
    (rlePoolPush pool (src.getD i 0)).2.length ≤ 253 ∧
    (rlePoolPush pool (src.getD i 0)).2.length ≤ pool.length + 1 ∧
    (rlePoolPush pool (src.getD i 0)).2.length ≤ i + 1 ∧
    (∀ t < (rlePoolPush pool (src.getD i 0)).2.length,
      (rlePoolPush pool (src.getD i 0)).2.getD t 0 =
        src.getD (i + 1 - (rlePoolPush pool (src.getD i 0)).2.length + t) 0) ∧
    ∀ K, rle8D width height ((rlePoolPush pool (src.getD i 0)).1 ++ K) r
        (i - pool.length) =
      ((rle8D width height K r
          (i + 1 - (rlePoolPush pool (src.getD i 0)).2.length)).1,
       colWrites src r (i - pool.length)
          (i + 1 - (rlePoolPush pool (src.getD i 0)).2.length -
            (i - pool.length)) ++
         (rle8D width height K r
            (i + 1 - (rlePoolPush pool (src.getD i 0)).2.length)).2) := by
  by_cases hfl : (pool ++ [src.getD i 0]).length = 254
  · -- flush: the pool held 253 bytes
    have hp253 : pool.length = 253 := by
      simp only [List.length_append, List.length_cons, List.length_nil] at hfl
      omega
    have hres : rlePoolPush pool (src.getD i 0) =
        ([0, 254] ++ (pool ++ [src.getD i 0]), []) := by
      unfold rlePoolPush
      rw [if_pos hfl]
    rw [hres]
    refine ⟨by simp, by simp, by simp, by simp, ?_⟩
    intro K
    have hshape : (([0, 254] ++ (pool ++ [src.getD i 0])) ++ K) =
        0 :: 254 :: ((pool ++ [src.getD i 0]) ++ [] ++ K) := by simp
    have hpool' : ∀ t < 254, (pool ++ [src.getD i 0]).getD t 0 =
        src.getD (i - 253 + t) 0 := by
      intro t ht
      rcases Nat.lt_or_ge t 253 with h | h
      · rw [List.getD_append _ _ _ _ (by omega)]
        have := hpool t (by omega)
        rw [hp253] at this
        exact this
      · have ht253 : t = 253 := by omega
        subst ht253
        rw [List.getD_append_right _ _ _ _ (by omega), hp253]
        have h0 : (253 : Nat) - 253 = 0 := by omega
        have h1 : i - 253 + 253 = i := by omega
        rw [h0, h1]
        rfl
    show rle8D width height (([0, 254] ++ (pool ++ [src.getD i 0])) ++ K) r
        (i - pool.length) = _
    rw [hshape]
    have hfit : (i - pool.length) + 254 ≤ width := by
      rw [hp253]
      omega
    rw [rle8D_literal width height 254 0 (pool ++ [src.getD i 0]) [] K r
      (i - pool.length) hr (by omega) hfit
      (by simp only [List.length_append, List.length_cons, List.length_nil]; omega)
      (by simp)]
    have hc1 : i - pool.length + 254 = i + 1 - List.length ([] : List Nat) := by
      simp only [List.length_nil]
      omega
    have hc2 : i + 1 - List.length ([] : List Nat) - (i - pool.length) = 254 := by
      simp only [List.length_nil]
      omega
    rw [hc1, hc2]
    have hmap : (List.range 254).map
        (fun t => PixelWrite.mk r (i - pool.length + t)
          ((pool ++ [src.getD i 0]).getD t 0)) =
        colWrites src r (i - pool.length) 254 := by
      unfold colWrites
      apply List.map_congr_left
      intro k hk
      simp only [List.mem_range] at hk
      rw [hpool' k hk, hp253]
    rw [hmap]
  · -- no flush: the byte joins the pool, nothing is emitted
    have hres : rlePoolPush pool (src.getD i 0) = ([], pool ++ [src.getD i 0]) := by
      unfold rlePoolPush
      rw [if_neg hfl]
    rw [hres]
    have hlen1 : (pool ++ [src.getD i 0]).length = pool.length + 1 := by
      simp
    have hpl' : (pool ++ [src.getD i 0]).length ≤ 253 := by
      rw [hlen1]
      rw [hlen1] at hfl
      omega
    have hbase : i + 1 - (pool ++ [src.getD i 0]).length = i - pool.length := by
      rw [hlen1]
      omega
    refine ⟨hpl', by rw [hlen1], by rw [hlen1]; omega, ?_, ?_⟩
    · intro t ht
      rw [hlen1] at ht
      rw [hbase]
      rcases Nat.lt_or_ge t pool.length with h | h
      · rw [List.getD_append _ _ _ _ (by omega)]
        exact hpool t h
      · have ht' : t = pool.length := by omega
        subst ht'
        rw [List.getD_append_right _ _ _ _ (by omega)]
        have h0 : pool.length - pool.length = 0 := by omega
        have h1 : i - pool.length + pool.length = i := by omega
        rw [h0, h1]
        rfl
    · intro K
      rw [hbase]
      simp [colWrites]

/-- Gluing adjacent canonical write ranges. -/
theorem colWrites_glue (src : List Nat) (r c0 mid hi : Nat)
    (h1 : c0 ≤ mid) (h2 : mid ≤ hi) :
    colWrites src r c0 (mid - c0) ++ colWrites src r mid (hi - mid) =
      colWrites src r c0 (hi - c0) := by
  have e1 : hi - c0 = (mid - c0) + (hi - mid) := by omega
  rw [e1, colWrites_split]
  congr 2
  omega

/-- Pushing the `n` source bytes starting at index `i` into the pool
(the short-block inner loop) preserves the pool invariant, grows the
pool by at most `n`, and its emitted output decodes to exactly the
columns that left the pool. -/
theorem rlePushRun_decodes (width height : Nat) (src : List Nat) (r : Nat)
    (hr : r < height) :
    ∀ n i pool, pool.length ≤ 253 → pool.length ≤ i →
      (∀ t < pool.length, pool.getD t 0 = src.getD (i - pool.length + t) 0) →
      i + n ≤ width →
      (rlePushRun src i n pool).2.length ≤ 253 ∧
      (rlePushRun src i n pool).2.length ≤ pool.length + n ∧
      (rlePushRun src i n pool).2.length ≤ i + n ∧
      (∀ t < (rlePushRun src i n pool).2.length,
        (rlePushRun src i n pool).2.getD t 0 =
          src.getD (i + n - (rlePushRun src i n pool).2.length + t) 0) ∧
      ∀ K, rle8D width height ((rlePushRun src i n pool).1 ++ K) r
          (i - pool.length) =
        ((rle8D width height K r (i + n - (rlePushRun src i n pool).2.length)).1,
         colWrites src r (i - pool.length)
            (i + n - (rlePushRun src i n pool).2.length - (i - pool.length)) ++
           (rle8D width height K r
              (i + n - (rlePushRun src i n pool).2.length)).2) := by
  intro n
  induction n with
  | zero =>
      intro i pool hpl hpi hpool hiw
      have h0 : rlePushRun src i 0 pool = ([], pool) := rfl
      rw [h0]
      simp only
      refine ⟨hpl, by omega, by omega, ?_, ?_⟩
      · intro t ht
        have : i + 0 - pool.length + t = i - pool.length + t := by omega
        rw [this]
        exact hpool t ht
      · intro K
        have h1 : i + 0 - pool.length = i - pool.length := by omega
        rw [h1]
        have h2 : i - pool.length - (i - pool.length) = 0 := by omega
        rw [h2]
        simp [colWrites]
  | succ n ih =>
      intro i pool hpl hpi hpool hiw
      have hsplit : rlePushRun src i (n + 1) pool =
          ((rlePushRun src i n pool).1 ++
            (rlePoolPush (rlePushRun src i n pool).2 (src.getD (i + n) 0)).1,
           (rlePoolPush (rlePushRun src i n pool).2 (src.getD (i + n) 0)).2) := by
        unfold rlePushRun
        rw [List.range_succ, List.foldl_append]
        rfl
      obtain ⟨ha253, hagrow, hale, haslice, hadec⟩ :=
        ih i pool hpl hpi hpool (by omega)
      set A := rlePushRun src i n pool with hA
      obtain ⟨hb253, hbgrow, hble, hbslice, hbdec⟩ :=
        rlePoolPush_decodes width height src r hr (i + n) A.2 ha253 hale
          haslice (by omega)
      set push := rlePoolPush A.2 (src.getD (i + n) 0) with hpush
      rw [hsplit]
      simp only
      refine ⟨hb253, by omega, by omega, ?_, ?_⟩
      · intro t ht
        have harith : i + n + 1 - push.2.length + t =
            i + (n + 1) - push.2.length + t := by omega
        rw [← harith]
        exact hbslice t ht
      · intro K
        rw [List.append_assoc]
        rw [hadec (push.1 ++ K)]
        rw [hbdec K]
        have harith : i + n + 1 - push.2.length = i + (n + 1) - push.2.length := by
          omega
        rw [harith]
        rw [← List.append_assoc]
        rw [colWrites_glue src r (i - pool.length) (i + n - A.2.length)
          (i + (n + 1) - push.2.length) (by omega) (by omega)]

/-- Decoding the output of the `RLEEncodeLine` main loop, from any loop
state whose pool holds the source bytes since column
`i - pool.length`, writes the rest of the row and continues on the next
row. -/
theorem rleEncLoop_decodes (width height : Nat) (src : List Nat) (r : Nat)
    (hw : width = src.length) (hr : r < height) :
    ∀ fuel i pool K, width - i < fuel → i ≤ width →
      pool.length ≤ 253 → pool.length ≤ i →
      (∀ t < pool.length, pool.getD t 0 = src.getD (i - pool.length + t) 0) →
      rle8D width height (rleEncLoop src fuel i pool ++ K) r (i - pool.length) =
        ((rle8D width height K (r + 1) 0).1,
         colWrites src r (i - pool.length) (width - (i - pool.length)) ++
           (rle8D width height K (r + 1) 0).2) := by
  intro fuel
  induction fuel with
  | zero => intro i pool K hfuel; omega
  | succ fuel ih =>
      intro i pool K hfuel hiw hpl hpi hpool
      rw [rleEncLoop]
      by_cases hi : i < src.length
      · rw [if_pos hi]
        by_cases hcond : i < src.length - 1 ∧ src.getD i 0 = src.getD (i + 1) 0
        · rw [if_pos hcond]
          simp only
          set j := rleRunEnd src (254 + i) src.length (i + 1) with hj
          have hj1 : i + 1 ≤ j := rleRunEnd_ge src (254 + i) src.length (i + 1)
          have hj2 : j ≤ src.length - 1 :=
            rleRunEnd_le src (254 + i) src.length (i + 1) (by omega)
          have hrun : ∀ t, i ≤ t → t < j → src.getD t 0 = src.getD (t + 1) 0 := by
            refine rleRunEnd_run src (254 + i) i src.length (i + 1) ?_
            intro t ht1 ht2
            have : t = i := by omega
            subst this
            exact hcond.2
          have heq : ∀ t, i ≤ t → t ≤ j → src.getD t 0 = src.getD i 0 :=
            run_eq_head src i j hrun
          by_cases h4 : 3 < j - i + 1
          · rw [if_pos h4]
            have hassoc : (rleFlushPool pool ++ [j - i + 1, src.getD i 0] ++
                rleEncLoop src fuel (j + 1) []) ++ K =
                rleFlushPool pool ++ ((j - i + 1) :: src.getD i 0 ::
                  (rleEncLoop src fuel (j + 1) [] ++ K)) := by simp
            rw [hassoc]
            rw [rleFlushPool_decodes width height src pool
              ((j - i + 1) :: src.getD i 0 :: (rleEncLoop src fuel (j + 1) [] ++ K))
              r (i - pool.length) hr
              (show (i - pool.length) + pool.length ≤ width from by omega) (by
                intro t ht
                have := hpool t ht
                rw [this])]
            have hbits : i - pool.length + pool.length = i := by omega
            rw [hbits]
            rw [rle8D_repeat width height (j - i + 1) (src.getD i 0) _ r i hr
              (by omega) (by omega)]
            have hcont : i + (j - i + 1) = j + 1 := by omega
            rw [hcont]
            have hihj := ih (j + 1) [] K (by omega) (by omega) (by simp)
              (by simp) (by simp)
            simp only [List.length_nil, Nat.sub_zero] at hihj
            rw [hihj]
            refine congrArg (fun x => (_, x)) ?_
            have hmap : (List.range (j - i + 1)).map
                (fun t => PixelWrite.mk r (i + t) (src.getD i 0)) =
                colWrites src r i (j - i + 1) := by
              unfold colWrites
              apply List.map_congr_left
              intro k hk
              simp only [List.mem_range] at hk
              rw [heq (i + k) (by omega) (by omega)]
            rw [hmap]
            have hglue1 : colWrites src r (i - pool.length) pool.length ++
                colWrites src r i (j - i + 1) =
                colWrites src r (i - pool.length) ((j + 1) - (i - pool.length)) := by
              have hg := colWrites_glue src r (i - pool.length) i (j + 1)
                (by omega) (by omega)
              rw [show i - (i - pool.length) = pool.length from by omega,
                show (j + 1) - i = j - i + 1 from by omega] at hg
              exact hg
            have hglue2 : colWrites src r (i - pool.length)
                ((j + 1) - (i - pool.length)) ++
                colWrites src r (j + 1) (width - (j + 1)) =
                colWrites src r (i - pool.length) (width - (i - pool.length)) := by
              exact colWrites_glue src r (i - pool.length) (j + 1) width
                (by omega) (by omega)
            calc colWrites src r (i - pool.length) pool.length ++
                  (colWrites src r i (j - i + 1) ++
                    (colWrites src r (j + 1) (width - (j + 1)) ++
                      (rle8D width height K (r + 1) 0).2))
                = (colWrites src r (i - pool.length) pool.length ++
                    colWrites src r i (j - i + 1)) ++
                    (colWrites src r (j + 1) (width - (j + 1)) ++
                      (rle8D width height K (r + 1) 0).2) := by
                  rw [List.append_assoc]
              _ = (colWrites src r (i - pool.length)
                    ((j + 1) - (i - pool.length)) ++
                    colWrites src r (j + 1) (width - (j + 1))) ++
                    (rle8D width height K (r + 1) 0).2 := by
                  rw [hglue1, List.append_assoc]
              _ = colWrites src r (i - pool.length) (width - (i - pool.length)) ++
                    (rle8D width height K (r + 1) 0).2 := by
                  rw [hglue2]
          · rw [if_neg h4]
            obtain ⟨hp253, hpgrow, hple, hpslice, hpdec⟩ :=
              rlePushRun_decodes width height src r hr (j - i + 1) i pool hpl
                hpi hpool (by omega)
            set pushed := rlePushRun src i (j - i + 1) pool with hpushed
            rw [List.append_assoc]
            rw [hpdec (rleEncLoop src fuel (j + 1) pushed.2 ++ K)]
            have hcont : i + (j - i + 1) = j + 1 := by omega
            rw [hcont] at hpslice hpdec ⊢
            have hihj := ih (j + 1) pushed.2 K (by omega) (by omega) hp253
              (by omega) hpslice
            rw [hihj]
            refine congrArg (fun x => (_, x)) ?_
            rw [← List.append_assoc]
            congr 1
            rw [colWrites_glue src r (i - pool.length) (j + 1 - pushed.2.length)
              width (by omega) (by omega)]
        · rw [if_neg hcond]
          simp only
          obtain ⟨hp253, hpgrow, hple, hpslice, hpdec⟩ :=
            rlePoolPush_decodes width height src r hr i pool hpl hpi hpool
              (by omega)
          set pushed := rlePoolPush pool (src.getD i 0) with hpushed
          rw [List.append_assoc]
          rw [hpdec (rleEncLoop src fuel (i + 1) pushed.2 ++ K)]
          have hihj := ih (i + 1) pushed.2 K (by omega) (by omega) hp253
            (by omega) hpslice
          rw [hihj]
          refine congrArg (fun x => (_, x)) ?_
          rw [← List.append_assoc]
          congr 1
          rw [colWrites_glue src r (i - pool.length) (i + 1 - pushed.2.length)
            width (by omega) (by omega)]
      · rw [if_neg hi]
        have hieq : i = width := by omega
        have hassoc : (rleFlushPool pool ++ [0, 0]) ++ K =
            rleFlushPool pool ++ (0 :: 0 :: K) := by simp
        rw [hassoc]
        rw [rleFlushPool_decodes width height src pool (0 :: 0 :: K) r
          (i - pool.length) hr
          (show (i - pool.length) + pool.length ≤ width from by omega) (by
            intro t ht
            have := hpool t ht
            rw [this])]
        have hbits : i - pool.length + pool.length = i := by omega
        rw [hbits]
        rw [rle8D_eol]
        have hcnt : width - (i - pool.length) = pool.length := by omega
        rw [hcnt]

/-- Encoding one full line from column 0 with an empty pool and the
canonical fuel, then decoding, writes the whole row and continues on the
next row. -/
theorem RLEEncodeLine_decodes (width height : Nat) (src : List Nat) (r : Nat)
    (hw : width = src.length) (hr : r < height) (K : List Nat) :
    rle8D width height (RLEEncodeLine src ++ K) r 0 =
      ((rle8D width height K (r + 1) 0).1,
       colWrites src r 0 width ++ (rle8D width height K (r + 1) 0).2) := by
  have h := rleEncLoop_decodes width height src r hw hr (src.length + 1) 0 [] K
    (by omega) (by omega) (by simp) (by simp) (by simp)
  simp only [List.length_nil, Nat.sub_zero] at h
  rw [RLEEncodeLine]
  exact h

/-- The canonical full-image write trace of rows starting at `r`: each
line written left to right on its row, rows in order. -/
def imageTraceFrom : List (List Nat) → Nat → List PixelWrite
  | [], _ => []
  | l :: ls, r => colWrites l r 0 l.length ++ imageTraceFrom ls (r + 1)

/-- Decoding a whole encoded image (all rows then the end-of-bitmap
marker) succeeds and produces exactly the canonical write trace. -/
theorem rle8D_rleEncodeImage (width height : Nat) :
    ∀ lines r, (∀ l ∈ lines, l.length = width) → r + lines.length ≤ height →
      rle8D width height ((lines.map RLEEncodeLine).flatten ++ [0, 1]) r 0 =
        (true, imageTraceFrom lines r) := by
  intro lines
  induction lines with
  | nil =>
      intro r _ _
      simp only [List.map_nil, List.flatten_nil, List.nil_append]
      rw [rle8D_eob]
      rfl
  | cons l ls ih =>
      intro r hlen hh
      have hl : l.length = width := hlen l (by simp)
      simp only [List.map_cons, List.flatten_cons, List.append_assoc]
      rw [RLEEncodeLine_decodes width height l r hl.symm
        (by simp only [List.length_cons] at hh; omega)]
      rw [ih (r + 1) (fun x hx => hlen x (by simp [hx]))
        (by simp only [List.length_cons] at hh; omega)]
      show (true, colWrites l r 0 width ++ imageTraceFrom ls (r + 1)) = _
      rw [imageTraceFrom, hl]

/-- Applying one pixel write to an image buffer (a list of rows):
`pixels[row][col] = val`, out-of-range writes ignored as `List.set`
ignores them. -/
def setPixel (m : List (List Nat)) (w : PixelWrite) : List (List Nat) :=
  m.set w.row ((m.getD w.row []).set w.col w.val)

/-- Applying a decode trace to an image buffer in order. -/
def applyWrites (m : List (List Nat)) (ws : List PixelWrite) : List (List Nat) :=
  ws.foldl setPixel m

theorem applyWrites_append (m : List (List Nat)) (ws1 ws2 : List PixelWrite) :
    applyWrites m (ws1 ++ ws2) = applyWrites (applyWrites m ws1) ws2 := by
  simp [applyWrites]

/-- Peeling the first write off a column range. -/
theorem colWrites_cons (src : List Nat) (r c0 n : Nat) :
    colWrites src r c0 (n + 1) =
      PixelWrite.mk r c0 (src.getD c0 0) :: colWrites src r (c0 + 1) n := by
  unfold colWrites
  rw [List.range_succ_eq_map, List.map_cons, List.map_map]
  simp only [Nat.add_zero]
  congr 1
  apply List.map_congr_left
  intro k _
  simp only [Function.comp_apply, Nat.succ_eq_add_one]
  have hk : c0 + (k + 1) = c0 + 1 + k := by omega
  rw [hk]

/-- The row contents after the writes of one column range. -/
def colApply (l : List Nat) : List Nat → Nat → Nat → List Nat
  | row, _, 0 => row
  | row, c0, n + 1 => colApply l (row.set c0 (l.getD c0 0)) (c0 + 1) n

theorem set_getD_self (m : List (List Nat)) (r : Nat) (hr : r < m.length) :
    m.set r (m.getD r []) = m := by
  apply List.ext_getElem?
  intro j
  by_cases hj : j = r
  · subst hj
    rw [List.getElem?_set_self (by omega)]
    rw [List.getD_eq_getElem?_getD, List.getElem?_eq_getElem hr]
    rfl
  · rw [List.getElem?_set_ne (by omega)]

theorem applyWrites_colWrites (l : List Nat) (r : Nat) :
    ∀ n c0 (m : List (List Nat)), r < m.length →
      applyWrites m (colWrites l r c0 n) =
        m.set r (colApply l (m.getD r []) c0 n) := by
  intro n
  induction n with
  | zero =>
      intro c0 m hr
      show applyWrites m [] = _
      rw [colApply]
      exact (set_getD_self m r hr).symm
  | succ n ihn =>
      intro c0 m hr
      rw [colWrites_cons]
      show applyWrites (setPixel m (PixelWrite.mk r c0 (l.getD c0 0)))
        (colWrites l r (c0 + 1) n) = _
      have hget : (setPixel m (PixelWrite.mk r c0 (l.getD c0 0))).getD r [] =
          (m.getD r []).set c0 (l.getD c0 0) := by
        unfold setPixel
        simp only
        rw [List.getD_eq_getElem?_getD, List.getElem?_set_self hr]
        rfl
      rw [ihn (c0 + 1) _ (by simp only [setPixel, List.length_set]; exact hr), hget]
      unfold setPixel
      simp only
      rw [List.set_set]
      rw [colApply]

theorem colApply_eq (l : List Nat) :
    ∀ n c0 row, List.length row = l.length → c0 + n = l.length →
      (∀ j < c0, row[j]? = l[j]?) →
      colApply l row c0 n = l := by
  intro n
  induction n with
  | zero =>
      intro c0 row hlen hc hpre
      rw [colApply]
      apply List.ext_getElem?
      intro j
      by_cases hj : j < c0
      · exact hpre j hj
      · rw [List.getElem?_eq_none (by omega), List.getElem?_eq_none (by omega)]
  | succ n ihn =>
      intro c0 row hlen hc hpre
      rw [colApply]
      refine ihn (c0 + 1) _ (by simp [hlen]) (by omega) ?_
      intro j hj
      by_cases hj' : j = c0
      · rw [hj']
        rw [List.getElem?_set_self (by omega)]
        rw [List.getElem?_eq_getElem (show c0 < l.length by omega)]
        rw [List.getD_eq_getElem?_getD, List.getElem?_eq_getElem
          (show c0 < l.length by omega)]
        rfl
      · rw [List.getElem?_set_ne (by omega)]
        exact hpre j (by omega)

/-- Applying the canonical trace of `lines` at row `r` to a buffer of
matching width and exact height fills rows `r` onward with `lines`. -/
theorem applyWrites_imageTrace (width : Nat) :
    ∀ lines (m : List (List Nat)) r,
      (∀ l ∈ lines, List.length l = width) →
      (∀ row ∈ m, List.length row = width) →
      r + lines.length = m.length →
      applyWrites m (imageTraceFrom lines r) = m.take r ++ lines := by
  intro lines
  induction lines with
  | nil =>
      intro m r _ _ hh
      show applyWrites m [] = _
      simp only [List.length_nil, Nat.add_zero] at hh
      simp [applyWrites, hh, List.take_of_length_le (le_of_eq hh.symm)]
  | cons l ls ih =>
      intro m r hlen hrows hh
      have hr : r < m.length := by
        simp only [List.length_cons] at hh; omega
      have hl : l.length = width := hlen l (by simp)
      rw [imageTraceFrom, applyWrites_append]
      rw [applyWrites_colWrites l r l.length 0 m hr]
      have hrow : (m.getD r []).length = width := by
        refine hrows _ ?_
        rw [List.getD_eq_getElem?_getD, List.getElem?_eq_getElem hr]
        exact List.getElem_mem hr
      rw [colApply_eq l l.length 0 (m.getD r []) (by omega) (by omega)
        (by intro j hj; omega)]
      rw [ih (m.set r l) (r + 1)
        (fun x hx => hlen x (by simp [hx]))
        (by
          intro row hrow'
          rcases List.mem_or_eq_of_mem_set hrow' with h | h
          · exact hrows row h
          · rw [h, hl])
        (by simp only [List.length_set, List.length_cons] at hh ⊢; omega)]
      rw [List.set_eq_take_cons_drop _ (by omega)]
      rw [List.take_append_eq_append_take]
      rw [List.take_of_length_le (by rw [List.length_take]; omega)]
      rw [List.length_take, min_eq_left (by omega)]
      rw [show r + 1 - r = 1 from by omega]
      simp

/-- C6: round-trip of the byte-oriented RLE codec.  For every image
buffer — a list of rows of bytes, each `width` bytes long (`width` is
the row size in BYTES, so one theorem covers bit depths 1, 4, 8, 16, 24
and 32, whose rows are all byte strings to the byte-oriented codec) and
every pixel content (runs, alternating bytes, noise: the rows are
universally quantified), decoding the output of `RLEEncodeLine` applied
row by row (plus the end-of-bitmap marker, as `Save` writes it) with
`LoadPixelDataRLE8` succeeds and, applied to a blank buffer of the same
dimensions, reproduces the original buffer exactly:
decode(encode(buffer)) == buffer. -/
theorem rle_roundtrip_decode_encode (width : Nat) (lines : List (List Nat))
    (hl : ∀ l ∈ lines, List.length l = width) :
    (LoadPixelDataRLE8 width lines.length (rleEncodeImage lines)).1 = true ∧
    applyWrites (List.replicate lines.length (List.replicate width 0))
        (LoadPixelDataRLE8 width lines.length (rleEncodeImage lines)).2 =
      lines := by
  have hdec : LoadPixelDataRLE8 width lines.length (rleEncodeImage lines) =
      (true, imageTraceFrom lines 0) := by
    show rle8D width lines.length
      ((lines.map RLEEncodeLine).flatten ++ [0, 1]) 0 0 = _
    exact rle8D_rleEncodeImage width lines.length lines 0 hl (by omega)
  rw [hdec]
  refine ⟨rfl, ?_⟩
  rw [applyWrites_imageTrace width lines
    (List.replicate lines.length (List.replicate width 0)) 0 hl
    (by
      intro row hrow
      rw [List.eq_of_mem_replicate hrow]
      exact List.length_replicate _ _)
    (by simp)]
  simp

/-- Witness for C6: a 2-row, 8-byte-per-row buffer with a run,
alternating bytes and a literal tail round-trips exactly. -/
theorem rle_roundtrip_decode_encode_witness :
    (∀ l ∈ [[5, 5, 5, 5, 1, 2, 3, 3], [7, 1, 1, 1, 1, 1, 1, 9]],
        List.length l = 8) ∧
    ((LoadPixelDataRLE8 8 2
        (rleEncodeImage [[5, 5, 5, 5, 1, 2, 3, 3], [7, 1, 1, 1, 1, 1, 1, 9]])).1
        = true ∧
     applyWrites (List.replicate 2 (List.replicate 8 0))
        (LoadPixelDataRLE8 8 2
          (rleEncodeImage [[5, 5, 5, 5, 1, 2, 3, 3],
            [7, 1, 1, 1, 1, 1, 1, 9]])).2 =
       [[5, 5, 5, 5, 1, 2, 3, 3], [7, 1, 1, 1, 1, 1, 1, 9]]) :=
  ⟨by decide, rle_roundtrip_decode_encode 8
    [[5, 5, 5, 5, 1, 2, 3, 3], [7, 1, 1, 1, 1, 1, 1, 9]] (by decide)⟩
